import Mathlib

/-!
Verification development for the local filesystem backend of the dstack
runner (runner/internal/backend/local/backend.go).

The backend is embedded shallowly: the file system is a list of
(relative path, contents) pairs, the facade state is a record, and the
operations of backend.go are translated function by function.  Helper
packages that are not part of the sources (LocalStorage, models.Job,
ClientSecret, the states constants) are modelled from the specification
and marked as such in their doc comments.
-/

namespace DstackLocal

/-- Go strings.HasPrefix and the prefix test of the storage listing, on the
underlying character lists of the two strings. -/
def strHasPrefix (pre s : String) : Bool := pre.data.isPrefixOf s.data

/-- Lexicographic order on path strings (on their character lists), the
deterministic order in which the storage layer lists files. -/
def strLe (a b : String) : Prop := a.data ≤ b.data

instance : DecidableRel strLe := fun a b => inferInstanceAs (Decidable (a.data ≤ b.data))

instance : IsTotal String strLe := ⟨fun a b => le_total a.data b.data⟩

instance : IsTrans String strLe := ⟨fun _ _ _ => le_trans⟩

/-- Go strings.ReplaceAll(s, "l;", "") on a character list: every
non-overlapping, left-to-right occurrence of the two-character pattern is
removed, not only a leading one. -/
def stripAllLSemi : List Char → List Char
  | 'l' :: ';' :: rest => stripAllLSemi rest
  | c :: rest => c :: stripAllLSemi rest
  | [] => []

/-- Go strings.ReplaceAll(s, "l;", "") as used by Local.Secrets. -/
def goReplaceAllLSemi (s : String) : String := ⟨stripAllLSemi s.data⟩

/-- An in-memory file system under the storage root: a list of
(relative path, contents) entries. -/
abbrev FS := List (String × String)

/-- The relative paths of all files of the file system. -/
def paths (fs : FS) : List String := fs.map Prod.fst

/-- Modelled from the spec: LocalStorage.GetFile (storage code absent from
the sources) returns the full contents of the file, failing when absent. -/
def getFile (fs : FS) (p : String) : Option String :=
  (fs.find? (fun e => e.1 == p)).map Prod.snd

/-- Modelled from the spec: LocalStorage.PutFile writes the contents,
replacing any prior file at the same path. -/
def putFile (fs : FS) (p c : String) : FS :=
  (p, c) :: fs.filter (fun e => e.1 != p)

/-- Modelled from the spec: LocalStorage.ListFile enumerates the regular
files whose relative path begins with the given string, in deterministic
lexicographic order, and yields the empty sequence when nothing matches.
In the Go implementation the empty result is the nil slice of capacity 0. -/
def listFile (fs : FS) (pre : String) : List String :=
  List.insertionSort strLe ((paths fs).filter (fun q => strHasPrefix pre q))

/-- Modelled from the spec: LocalStorage.RenameFile moves a file within the
root, failing when the source is missing and replacing any file already at
the target path. -/
def renameFile (fs : FS) (src dst : String) : Option FS :=
  match getFile fs src with
  | none => none
  | some c => some (putFile (fs.filter (fun e => e.1 != src)) dst c)

/-- Modelled from the spec: the fields of models.Job (absent from the
sources) that the local backend reads.  The host-with-port repo coordinate
is kept as a single field, as in the spec data model. -/
structure Job where
  jobID : String
  masterJobID : String
  repoHostNameWithPort : String
  repoUserName : String
  repoName : String
  status : String
deriving DecidableEq

/-- Modelled from the spec: models.Job.JobFilepath, the canonical job
document path jobs/(repo-user)/(repo-name)/(job-id).yaml. -/
def Job.jobFilepath (j : Job) : String :=
  "jobs/" ++ j.repoUserName ++ "/" ++ j.repoName ++ "/" ++ j.jobID ++ ".yaml"

/-- Modelled from the spec: models.Job.JobHeadFilepathPrefix, the stable
per-job head prefix under which the single head file lives. -/
def Job.jobHeadFilepathPrefix (j : Job) : String :=
  "jobs/" ++ j.repoUserName ++ "/" ++ j.repoName ++ "/l;" ++ j.jobID ++ ";"

/-- Modelled from the spec: models.Job.JobHeadFilepath, the head filename
encoding the current status tuple of the job below the head prefix. -/
def Job.jobHeadFilepath (j : Job) : String :=
  j.jobHeadFilepathPrefix ++ j.status

/-- Modelled from the spec: models.State, the wrapper carrying the current
Job that runners/(runner-id).yaml deserializes into. -/
structure State where
  job : Job
deriving DecidableEq

/-- The Local backend facade of backend.go: config path, working root,
runner id and loaded state.  The storage root and the secret-store root are
the roots passed to NewLocalStorage and NewClientSecret. -/
structure Local where
  path : String
  runnerID : String
  state : Option State
  storageRoot : String
  secretRoot : String
deriving DecidableEq

/-- The outcome of one Local.UpdateState call: normal return, Go runtime
panic, or a returned error. -/
inductive UpdateOutcome
  | ok (fs : FS)
  | panicked (fs : FS)
  | renameError (fs : FS)
deriving DecidableEq

/-- Local.UpdateState of backend.go: write the marshalled job document doc
to its canonical path, list the head prefix, then range over files[:1]
renaming the entry to the new head filename.  The Go slice expression
files[:1] panics (slice bounds out of range) when the listing is the empty
nil slice, whose capacity is 0; that is the panicked outcome. -/
def updateState (fs : FS) (j : Job) (doc : String) : UpdateOutcome :=
  let fs1 := putFile fs j.jobFilepath doc
  match listFile fs1 j.jobHeadFilepathPrefix with
  | [] => .panicked fs1
  | f :: _ =>
    match renameFile fs1 f j.jobHeadFilepath with
    | none => .renameError fs1
    | some fs2 => .ok fs2

/-- A finite sequence of UpdateState calls against one job identity, where
the i-th call runs with the job status set to the i-th list element; the
sequence stops at the first panic or error. -/
def runUpdates (fs : FS) (j : Job) (marshal : Job → String) : List String → Option FS
  | [] => some fs
  | s :: rest =>
    match updateState fs { j with status := s } (marshal { j with status := s }) with
    | .ok fs2 => runUpdates fs2 j marshal rest
    | _ => none

/-- Modelled from the spec: the literal stop token states.Stopping (the
states package is absent from the sources). -/
def statesStopping : String := "Stopping"

/-- The view one CheckStop run has of the stop signal file: whether the file
exists, its contents, and which of the system calls os.Stat, os.Open and
io.ReadAll fail (for Stat, an error other than the absence report). -/
structure StopFile where
  present : Bool
  contents : String
  statErr : Bool
  openErr : Bool
  readErr : Bool
deriving DecidableEq

/-- The path consulted by Local.CheckStop:
fmt.Sprintf("runners/m;%s;status", l.runnerID). -/
def stopFilePath (l : Local) : String := "runners/m;" ++ l.runnerID ++ ";status"

/-- Local.CheckStop of backend.go.  os.Stat is checked for err == nil only,
so a missing file and a Stat that fails for any other reason both fall
through to the final return false, nil.  After a successful Stat, an error
from os.Open or io.ReadAll is returned, and otherwise the contents are
compared with states.Stopping. -/
def checkStop (l : Local) (view : String → StopFile) : Except Unit Bool :=
  let f := view (stopFilePath l)
  if f.present && !f.statErr then
    if f.openErr then .error ()
    else if f.readErr then .error ()
    else if f.contents == statesStopping then .ok true
    else .ok false
  else .ok false

/-- The result of one storage or file read: contents, a not-found failure,
or any other I/O failure. -/
inductive StorageRes (α : Type)
  | ok (a : α)
  | notFound
  | ioError
deriving DecidableEq

/-- The path read by Local.MasterJob:
jobs/(repo-user)/(repo-name)/(master-id).yaml. -/
def masterJobPath (j : Job) : String :=
  "jobs/" ++ j.repoUserName ++ "/" ++ j.repoName ++ "/" ++ j.masterJobID ++ ".yaml"

/-- Local.MasterJob of backend.go: read the master job document and
unmarshal it; any read failure or parse failure yields nil, success yields
the parsed job.  The storage read and the yaml decoder are parameters. -/
def masterJob (j : Job) (getF : String → StorageRes String)
    (parseJob : String → Option Job) : Option Job :=
  match getF (masterJobPath j) with
  | .ok contents => parseJob contents
  | _ => none

/-- Local.Init of backend.go: the runner id is recorded on the facade
first, and only then is runners/(id).yaml read and unmarshalled into the
state.  The Bool of the result is true exactly when Init returns nil. -/
def initBackend (l : Local) (id : String) (getF : String → StorageRes String)
    (parseState : String → Option State) : Local × Bool :=
  let l1 := { l with runnerID := id }
  match getF ("runners/" ++ id ++ ".yaml") with
  | .ok contents =>
    match parseState contents with
    | some st => ({ l1 with state := some st }, true)
    | none => (l1, false)
  | _ => (l1, false)

/-- A directory entry of the secret directory, as os.ReadDir reports it. -/
structure DirEntry where
  name : String
  isDir : Bool
deriving DecidableEq

/-- The view one Secrets run has of the per-repo secret directory: absent,
os.Stat failing with another error, os.ReadDir failing, or present with its
entries. -/
inductive SecretDir
  | absent
  | statIOErr
  | readDirErr
  | present (entries : List DirEntry)

/-- The secret directory path of Local.Secrets:
secrets/(host-with-port)/(repo-user)/(repo-name). -/
def secretsTemplatePath (j : Job) : String :=
  "secrets/" ++ j.repoHostNameWithPort ++ "/" ++ j.repoUserName ++ "/" ++ j.repoName

/-- A Go map[string]string, as a list of key-value pairs with unique keys. -/
abbrev SecretMap := List (String × String)

/-- Go map insertion: replaces any existing binding of the key. -/
def mapInsert (m : SecretMap) (k v : String) : SecretMap :=
  m.filter (fun e => e.1 != k) ++ [(k, v)]

/-- The keys of a Go map. -/
def mapKeys (m : SecretMap) : List String := m.map Prod.fst

/-- The result of Local.Secrets: a mapping with nil error, or an error. -/
inductive SecretsResult
  | ok (m : SecretMap)
  | err
deriving DecidableEq

/-- The loop body of Local.Secrets: directories are skipped, names with
prefix l; are keyed by strings.ReplaceAll(name, "l;", "") and mapped to
(host-with-port)/(repo-user)/(repo-name)/(cleared name). -/
def secretsStep (j : Job) (acc : SecretMap) (e : DirEntry) : SecretMap :=
  if e.isDir then acc
  else if strHasPrefix "l;" e.name then
    mapInsert acc (goReplaceAllLSemi e.name)
      (j.repoHostNameWithPort ++ "/" ++ j.repoUserName ++ "/" ++ j.repoName
        ++ "/" ++ goReplaceAllLSemi e.name)
  else acc

/-- The enumeration loop of Local.Secrets over the directory entries. -/
def secretsEnum (j : Job) (entries : List DirEntry) : SecretMap :=
  entries.foldl (secretsStep j) []

/-- Local.Secrets of backend.go: a failing os.Stat on the secret directory
(absence or any other error) yields the empty map with nil error; a failing
os.ReadDir is returned as an error; otherwise the enumerated map is handed
to ClientSecret.fetchSecret, which is absent from the sources and passed
here as a function. -/
def secrets (j : Job) (dir : SecretDir)
    (fetchSec : String → SecretMap → SecretsResult) : SecretsResult :=
  match dir with
  | .absent => .ok []
  | .statIOErr => .ok []
  | .readDirErr => .err
  | .present entries => fetchSec (secretsTemplatePath j) (secretsEnum j entries)

/-- The yaml document type of the backend config file: File with the single
string field Path. -/
structure ConfigFile where
  path : String
deriving DecidableEq

/-- Local.New of backend.go: the working root is the fixed (home)/.dstack
(consts.DSTACK_DIR_PATH, fixed per the spec), and the storage and the
secret store are both rooted there. -/
def newLocal (homeDir : String) : Local :=
  { path := homeDir ++ "/.dstack", runnerID := "", state := none,
    storageRoot := homeDir ++ "/.dstack", secretRoot := homeDir ++ "/.dstack" }

/-- The constructor registered for the name "local" in init() of
backend.go: read the config file, unmarshal it into File, and on success
return New(); the parsed value is dropped. -/
def localConstructor (homeDir : String) (readF : String → StorageRes String)
    (parseCfg : String → Option ConfigFile) (pathConfig : String) : Option Local :=
  match readF pathConfig with
  | .ok contents =>
    match parseCfg contents with
    | some _ => some (newLocal homeDir)
    | none => none
  | _ => none

/-- A concrete job fixture used by witnesses and counterexamples. -/
def jobRun : Job :=
  { jobID := "J", masterJobID := "M", repoHostNameWithPort := "h",
    repoUserName := "u", repoName := "r", status := "running" }

/-! ### Helper lemmas about the storage model -/

theorem paths_filterKey (fs : FS) (q : String → Bool) :
    paths (fs.filter (fun e => q e.1)) = (paths fs).filter q := by
  induction fs with
  | nil => rfl
  | cons e fs ih =>
    simp only [paths, List.filter_cons, List.map_cons] at *
    cases hq : q e.1 <;> simp [hq, ih]

theorem paths_filter_keyNe (fs : FS) (k : String) :
    paths (fs.filter (fun e => e.1 != k)) = (paths fs).filter (fun x => x != k) := by
  simpa using paths_filterKey fs (fun x => x != k)

theorem filter_filter_of_imp (l : List String) (P Q : String → Bool)
    (h : ∀ x, P x = true → Q x = true) :
    (l.filter Q).filter P = l.filter P := by
  induction l with
  | nil => rfl
  | cons x xs ih =>
    cases hq : Q x
    · have hp : P x = false := by
        cases hpx : P x
        · rfl
        · exact absurd (h x hpx) (by simp [hq])
      simp [List.filter_cons, hq, hp, ih]
    · cases hp : P x <;> simp [List.filter_cons, hq, hp, ih]

theorem filter_nil_of_filter_nil (l : List String) (P A : String → Bool)
    (h : l.filter P = []) : (l.filter A).filter P = [] := by
  induction l with
  | nil => rfl
  | cons x xs ih =>
    cases hp : P x
    · simp only [List.filter_cons, hp] at h
      simp only [Bool.false_eq_true, if_false] at h
      cases ha : A x <;> simp [List.filter_cons, ha, hp, ih h]
    · simp [List.filter_cons, hp] at h

theorem filter_filter_nil_of_single (l : List String) (P B : String → Bool) (h0 : String)
    (hl : l.filter P = [h0]) (hB : B h0 = false) :
    (l.filter B).filter P = [] := by
  induction l with
  | nil => simp at hl
  | cons x xs ih =>
    cases hp : P x
    · simp only [List.filter_cons, hp, Bool.false_eq_true, if_false] at hl
      cases hb : B x <;> simp [List.filter_cons, hb, hp, ih hl]
    · simp only [List.filter_cons, hp, if_true] at hl
      simp only [List.cons.injEq] at hl
      obtain ⟨rfl, h2⟩ := hl
      rw [List.filter_cons, hB]
      simp only [Bool.false_eq_true, if_false]
      exact filter_nil_of_filter_nil xs P B h2

theorem find?_filter_of_imp (l : FS) (p q : (String × String) → Bool)
    (h : ∀ x, p x = true → q x = true) :
    (l.filter q).find? p = l.find? p := by
  induction l with
  | nil => rfl
  | cons x xs ih =>
    cases hq : q x
    · have hp : p x = false := by
        cases hpx : p x
        · rfl
        · exact absurd (h x hpx) (by simp [hq])
      simp [List.filter_cons, hq, List.find?_cons, hp, ih]
    · cases hp : p x <;>
        simp [List.filter_cons, hq, List.find?_cons, hp, ih]

theorem getFile_putFile_same (fs : FS) (p c : String) :
    getFile (putFile fs p c) p = some c := by
  simp [getFile, putFile, List.find?_cons_of_pos]

theorem getFile_putFile_ne (fs : FS) (p c q : String) (h : q ≠ p) :
    getFile (putFile fs p c) q = getFile fs q := by
  unfold getFile putFile
  rw [List.find?_cons_of_neg _ (by simp [Ne.symm h]),
    find?_filter_of_imp _ _ _ ?_]
  intro e he
  simp only [beq_iff_eq] at he
  simp [he, h]

theorem getFile_filterKey_ne (fs : FS) (k q : String) (h : q ≠ k) :
    getFile (fs.filter (fun e => e.1 != k)) q = getFile fs q := by
  unfold getFile
  rw [find?_filter_of_imp _ _ _ ?_]
  intro e he
  simp only [beq_iff_eq] at he
  simp [he, h]

theorem getFile_isSome_of_mem (fs : FS) (p : String) (h : p ∈ paths fs) :
    ∃ c, getFile fs p = some c := by
  obtain ⟨e, he, rfl⟩ := List.mem_map.mp h
  have hs : (fs.find? (fun e2 => e2.1 == e.1)).isSome := by
    rw [List.find?_isSome]
    exact ⟨e, he, by simp⟩
  obtain ⟨y, hy⟩ := Option.isSome_iff_exists.mp hs
  exact ⟨y.2, by rw [getFile, hy]; rfl⟩

theorem paths_putFile (fs : FS) (p c : String) :
    paths (putFile fs p c) = p :: (paths fs).filter (fun x => x != p) := by
  unfold putFile
  have h := paths_filterKey fs (fun x => x != p)
  simp only [paths, List.map_cons] at *
  rw [h]

theorem listFile_eq_singleton_iff (fs : FS) (pre h0 : String) :
    listFile fs pre = [h0] ↔ (paths fs).filter (fun q => strHasPrefix pre q) = [h0] := by
  unfold listFile
  constructor
  · intro h
    have hp := List.perm_insertionSort strLe ((paths fs).filter (fun q => strHasPrefix pre q))
    rw [h] at hp
    exact (List.singleton_perm.mp hp).symm
  · intro h
    rw [h]
    rfl

theorem mem_of_listFile (fs : FS) (pre x : String) (l : List String)
    (h : listFile fs pre = l) (hx : x ∈ l) :
    x ∈ paths fs ∧ strHasPrefix pre x = true := by
  subst h
  unfold listFile at hx
  have hm := (List.perm_insertionSort strLe _).mem_iff.mp hx
  exact ⟨(List.mem_filter.mp hm).1, (List.mem_filter.mp hm).2⟩

theorem listFile_putFile_of_notMatch (fs : FS) (p c pre : String)
    (h : strHasPrefix pre p = false) :
    listFile (putFile fs p c) pre = listFile fs pre := by
  unfold listFile
  rw [paths_putFile, List.filter_cons, h]
  simp only [Bool.false_eq_true, if_false]
  rw [filter_filter_of_imp _ _ _ ?_]
  intro x hx
  cases he : x == p
  · simp [bne, he]
  · simp only [beq_iff_eq] at he
    subst he
    rw [hx] at h
    exact absurd h (by simp)

theorem strHasPrefix_append (pre s : String) : strHasPrefix pre (pre ++ s) = true := by
  unfold strHasPrefix
  rw [String.data_append]
  exact List.isPrefixOf_iff_prefix.mpr (List.prefix_append _ _)

/-! ### The single-head-file step lemma for UpdateState -/

theorem updateState_single (fs : FS) (j : Job) (doc h0 : String)
    (hdisj : strHasPrefix j.jobHeadFilepathPrefix j.jobFilepath = false)
    (hone : listFile fs j.jobHeadFilepathPrefix = [h0]) :
    ∃ fs2, updateState fs j doc = .ok fs2
      ∧ getFile fs2 j.jobFilepath = some doc
      ∧ listFile fs2 j.jobHeadFilepathPrefix = [j.jobHeadFilepath] := by
  have hfmatch : strHasPrefix j.jobHeadFilepathPrefix j.jobHeadFilepath = true :=
    strHasPrefix_append _ _
  have hlist1 : listFile (putFile fs j.jobFilepath doc) j.jobHeadFilepathPrefix = [h0] := by
    rw [listFile_putFile_of_notMatch _ _ _ _ hdisj, hone]
  have hmem := mem_of_listFile _ _ h0 _ hlist1 (by simp)
  have hjpne : j.jobFilepath ≠ h0 := by
    intro he
    rw [he, hmem.2] at hdisj
    exact absurd hdisj (by simp)
  have hjpnf : j.jobFilepath ≠ j.jobHeadFilepath := by
    intro he
    rw [he, hfmatch] at hdisj
    exact absurd hdisj (by simp)
  obtain ⟨c0, hc0⟩ := getFile_isSome_of_mem _ h0 hmem.1
  refine ⟨putFile ((putFile fs j.jobFilepath doc).filter (fun e => e.1 != h0))
      j.jobHeadFilepath c0, ?_, ?_, ?_⟩
  · unfold updateState
    simp only [hlist1]
    unfold renameFile
    rw [hc0]
  · rw [getFile_putFile_ne _ _ _ _ hjpnf, getFile_filterKey_ne _ _ _ hjpne,
      getFile_putFile_same]
  · rw [listFile_eq_singleton_iff]
    rw [paths_putFile]
    have hpaths : paths ((putFile fs j.jobFilepath doc).filter (fun e => e.1 != h0))
        = (paths (putFile fs j.jobFilepath doc)).filter (fun x => x != h0) :=
      paths_filter_keyNe _ _
    rw [hpaths, List.filter_cons, hfmatch, if_pos rfl]
    have hsingle : (paths (putFile fs j.jobFilepath doc)).filter
        (fun q => strHasPrefix j.jobHeadFilepathPrefix q) = [h0] :=
      (listFile_eq_singleton_iff _ _ _).mp hlist1
    have hinner : (((paths (putFile fs j.jobFilepath doc)).filter (fun x => x != h0)).filter
        (fun x => x != j.jobHeadFilepath)).filter
        (fun q => strHasPrefix j.jobHeadFilepathPrefix q) = [] := by
      apply filter_nil_of_filter_nil
      exact filter_filter_nil_of_single _ _ _ h0 hsingle (by simp)
    rw [hinner]

/-! ### Iterated UpdateState calls preserve the single head file -/

theorem runUpdates_single (j : Job) (marshal : Job → String)
    (hdisj : strHasPrefix j.jobHeadFilepathPrefix j.jobFilepath = false) :
    ∀ (statuses : List String) (fs : FS) (h0 : String),
      listFile fs j.jobHeadFilepathPrefix = [h0] →
      ∃ fsN, runUpdates fs j marshal statuses = some fsN
        ∧ listFile fsN j.jobHeadFilepathPrefix
            = [statuses.foldl (fun _ s => j.jobHeadFilepathPrefix ++ s) h0]
  | [], fs, h0, hone => ⟨fs, rfl, hone⟩
  | s :: rest, fs, h0, hone => by
    obtain ⟨fs2, hok, _, hl2⟩ :=
      updateState_single fs { j with status := s } (marshal { j with status := s }) h0
        hdisj hone
    obtain ⟨fsN, hrun, hlast⟩ := runUpdates_single j marshal hdisj rest fs2 _ hl2
    refine ⟨fsN, ?_, ?_⟩
    · unfold runUpdates
      rw [hok]
      exact hrun
    · rw [hlast]
      rfl

/-! ### Claims -/

/-- Claim C1 (code bug): the spec says that with an empty head-prefix
listing UpdateState only writes the job document, performs no rename and
returns success.  The code instead evaluates files[:1] on the empty nil
slice, a Go runtime panic (slice bounds out of range with capacity 0): the
document has been written, no rename happens, but the call does not return
success. -/
theorem c1_updateState_panics_on_empty_listing (fs : FS) (j : Job) (doc : String)
    (hempty : listFile (putFile fs j.jobFilepath doc) j.jobHeadFilepathPrefix = []) :
    updateState fs j doc = .panicked (putFile fs j.jobFilepath doc)
    ∧ getFile (putFile fs j.jobFilepath doc) j.jobFilepath = some doc := by
  constructor
  · unfold updateState
    simp only [hempty]
  · exact getFile_putFile_same fs j.jobFilepath doc

/-- Witness for C1: on the empty file system the head-prefix listing after
the document write is empty and UpdateState panics. -/
theorem c1_witness :
    updateState [] jobRun "doc" = .panicked (putFile [] jobRun.jobFilepath "doc")
    ∧ getFile (putFile [] jobRun.jobFilepath "doc") jobRun.jobFilepath = some "doc" :=
  c1_updateState_panics_on_empty_listing [] jobRun "doc" (by decide)

/-- Claim C3, counterexample: the stop signal file exists with contents
Stopping, but os.Stat fails with an error other than absence; CheckStop
returns (false, nil), so the I/O error is not surfaced and the claim as
stated is false. -/
theorem c3_counterexample :
    checkStop (newLocal "home") (fun _ => ⟨true, "Stopping", true, false, false⟩)
      = .ok false := rfl

/-- Claim C3 as amended: when the stop signal file exists, an open or read
error occurring after a successful existence check is surfaced as a non-nil
error, while a failing os.Stat — absence or any other error — yields
(false, nil) without surfacing anything. -/
theorem c3_checkStop_error_surfacing (l : Local) (view : String → StopFile)
    (hpres : (view (stopFilePath l)).present = true) :
    ((view (stopFilePath l)).statErr = false →
      ((view (stopFilePath l)).openErr = true ∨ (view (stopFilePath l)).readErr = true) →
      checkStop l view = .error ())
    ∧ ((view (stopFilePath l)).statErr = true → checkStop l view = .ok false) := by
  constructor
  · intro hstat herr
    unfold checkStop
    rcases herr with ho | hr
    · simp [hpres, hstat, ho]
    · cases hopen : (view (stopFilePath l)).openErr <;> simp [hpres, hstat, hr, hopen]
  · intro hstat
    unfold checkStop
    simp [hpres, hstat]

/-- Witness for C3: with the file present, Stat fine and Open failing,
CheckStop surfaces the error. -/
theorem c3_witness :
    checkStop (newLocal "home") (fun _ => ⟨true, "Stopping", false, true, false⟩)
      = .error () :=
  (c3_checkStop_error_surfacing (newLocal "home")
    (fun _ => ⟨true, "Stopping", false, true, false⟩) rfl).1 rfl (Or.inl rfl)

/-- Claim C6: in a run without injected I/O errors, CheckStop returns
(true, nil) exactly when the stop signal file exists with contents equal to
states.Stopping, and (false, nil) when the file is missing or holds any
other contents. -/
theorem c6_checkStop_stopping (l : Local) (view : String → StopFile)
    (hstat : (view (stopFilePath l)).statErr = false)
    (hopen : (view (stopFilePath l)).openErr = false)
    (hread : (view (stopFilePath l)).readErr = false) :
    (checkStop l view = .ok true ↔
      (view (stopFilePath l)).present = true
        ∧ (view (stopFilePath l)).contents = statesStopping)
    ∧ ((view (stopFilePath l)).present = false → checkStop l view = .ok false)
    ∧ ((view (stopFilePath l)).contents ≠ statesStopping → checkStop l view = .ok false) := by
  unfold checkStop
  refine ⟨?_, ?_, ?_⟩
  · cases hp : (view (stopFilePath l)).present <;>
      cases hc : (view (stopFilePath l)).contents == statesStopping <;>
        simp_all [beq_iff_eq]
  · intro hp
    simp [hp]
  · intro hc
    cases hp : (view (stopFilePath l)).present <;> simp_all [beq_iff_eq]

/-- Witness for C6: the file contains Stopping and CheckStop answers
(true, nil); derived by applying the claim theorem at a concrete state. -/
theorem c6_witness :
    checkStop (newLocal "home") (fun _ => ⟨true, "Stopping", false, false, false⟩)
      = .ok true :=
  ((c6_checkStop_stopping (newLocal "home")
    (fun _ => ⟨true, "Stopping", false, false, false⟩) rfl rfl rfl).1).mpr ⟨rfl, rfl⟩

/-- Claim C7: MasterJob yields nil on any read failure (absence or I/O
error) and on any parse failure, and the parsed job when both succeed. -/
theorem c7_masterJob_total (j : Job) (getF : String → StorageRes String)
    (parseJob : String → Option Job) :
    ((getF (masterJobPath j) = .notFound ∨ getF (masterJobPath j) = .ioError) →
      masterJob j getF parseJob = none)
    ∧ (∀ c, getF (masterJobPath j) = .ok c → parseJob c = none →
      masterJob j getF parseJob = none)
    ∧ (∀ c jb, getF (masterJobPath j) = .ok c → parseJob c = some jb →
      masterJob j getF parseJob = some jb) := by
  refine ⟨?_, ?_, ?_⟩
  · intro h
    unfold masterJob
    rcases h with h | h <;> rw [h]
  · intro c h hp
    unfold masterJob
    rw [h]
    exact hp
  · intro c jb h hp
    unfold masterJob
    rw [h]
    exact hp

/-- Witness for C7: a missing master job file gives nil without error. -/
theorem c7_witness :
    masterJob jobRun (fun _ => .notFound) (fun _ => none) = none :=
  (c7_masterJob_total jobRun (fun _ => .notFound) (fun _ => none)).1 (Or.inl rfl)

/-- Claim C8: when the per-repo secret directory is absent, Secrets returns
the empty mapping with nil error, and the result does not depend on the
credential store function at all. -/
theorem c8_secrets_absent_empty (j : Job)
    (f g : String → SecretMap → SecretsResult) :
    secrets j .absent f = .ok [] ∧ secrets j .absent f = secrets j .absent g :=
  ⟨rfl, rfl⟩

/-- Claim C4: starting from a head-prefix listing with exactly one file,
UpdateState writes the job document to its canonical path, renames that
single head file to the encoding of the current job, and afterwards the
listing holds exactly the current head encoding; and the exactly-one-head
property is preserved by any finite sequence of UpdateState calls, the last
of which determines the remaining head filename. -/
theorem c4_single_head_preserved (fs : FS) (j : Job) (doc h0 : String)
    (statuses : List String) (marshal : Job → String)
    (hdisj : strHasPrefix j.jobHeadFilepathPrefix j.jobFilepath = false)
    (hone : listFile fs j.jobHeadFilepathPrefix = [h0]) :
    (∃ fs2, updateState fs j doc = .ok fs2
      ∧ getFile fs2 j.jobFilepath = some doc
      ∧ listFile fs2 j.jobHeadFilepathPrefix = [j.jobHeadFilepath])
    ∧ (∃ fsN, runUpdates fs j marshal statuses = some fsN
      ∧ listFile fsN j.jobHeadFilepathPrefix
          = [statuses.foldl (fun _ s => j.jobHeadFilepathPrefix ++ s) h0]) :=
  ⟨updateState_single fs j doc h0 hdisj hone,
   runUpdates_single j marshal hdisj statuses fs h0 hone⟩

/-- Witness for C4: a concrete single-head state, updated through the
status sequence pending, running, done. -/
theorem c4_witness :
    (∃ fs2, updateState [("jobs/u/r/l;J;submitted", "x")] jobRun "doc" = .ok fs2
      ∧ getFile fs2 jobRun.jobFilepath = some "doc"
      ∧ listFile fs2 jobRun.jobHeadFilepathPrefix = [jobRun.jobHeadFilepath])
    ∧ (∃ fsN, runUpdates [("jobs/u/r/l;J;submitted", "x")] jobRun (fun _ => "d")
          ["pending", "running", "done"] = some fsN
      ∧ listFile fsN jobRun.jobHeadFilepathPrefix
          = [["pending", "running", "done"].foldl
              (fun _ s => jobRun.jobHeadFilepathPrefix ++ s) "jobs/u/r/l;J;submitted"]) :=
  c4_single_head_preserved [("jobs/u/r/l;J;submitted", "x")] jobRun "doc"
    "jobs/u/r/l;J;submitted" ["pending", "running", "done"] (fun _ => "d")
    (by decide) (by decide)

/-- Claim C5, counterexample: the head-prefix directory holds the two
entries l;J;pending (contents A) and l;J;running (contents B), and the new
head encoding is l;J;running.  UpdateState renames the lexicographically
first entry l;J;pending onto l;J;running, overwriting it: the second entry
is not left in place unchanged — its contents changed from B to A — so the
claim as stated is false. -/
theorem c5_counterexample :
    updateState [("jobs/u/r/l;J;pending", "A"), ("jobs/u/r/l;J;running", "B")] jobRun "doc"
      = .ok [("jobs/u/r/l;J;running", "A"), ("jobs/u/r/J.yaml", "doc")]
    ∧ getFile [("jobs/u/r/l;J;running", "A"), ("jobs/u/r/J.yaml", "doc")]
        "jobs/u/r/l;J;running" ≠ some "B" := by
  constructor
  · rfl
  · decide

/-- Claim C5 as amended: with two or more entries under the head prefix,
UpdateState renames only the first entry of the lexicographically sorted
listing to the new head filename; every other entry whose name differs from
the new head filename (and from the canonical document path) is left in
place unchanged, and when the new head filename coincides with another
entry, that entry ends up holding the contents of the renamed first
entry. -/
theorem c5_first_entry_renamed (fs : FS) (j : Job) (doc f : String) (rest : List String)
    (hdisj : strHasPrefix j.jobHeadFilepathPrefix j.jobFilepath = false)
    (hlist : listFile fs j.jobHeadFilepathPrefix = f :: rest) :
    List.Sorted strLe (f :: rest)
    ∧ ∃ c0 fs2, getFile fs f = some c0
      ∧ updateState fs j doc = .ok fs2
      ∧ getFile fs2 j.jobHeadFilepath = some c0
      ∧ (f ≠ j.jobHeadFilepath → f ∉ paths fs2)
      ∧ (∀ q c, (q, c) ∈ fs → q ≠ f → q ≠ j.jobHeadFilepath → q ≠ j.jobFilepath →
          (q, c) ∈ fs2) := by
  have hsorted : List.Sorted strLe (f :: rest) := by
    have h := List.sorted_insertionSort strLe
      ((paths fs).filter (fun q => strHasPrefix j.jobHeadFilepathPrefix q))
    unfold listFile at hlist
    rw [hlist] at h
    exact h
  have hlist1 : listFile (putFile fs j.jobFilepath doc) j.jobHeadFilepathPrefix
      = f :: rest := by
    rw [listFile_putFile_of_notMatch _ _ _ _ hdisj, hlist]
  have hmem := mem_of_listFile _ _ f _ hlist1 (by simp)
  have hfne : f ≠ j.jobFilepath := by
    intro he
    rw [← he] at hdisj
    rw [hmem.2] at hdisj
    exact absurd hdisj (by simp)
  have hmemfs : f ∈ paths fs := by
    have h1 := hmem.1
    rw [paths_putFile] at h1
    rcases List.mem_cons.mp h1 with h | h
    · exact absurd h hfne
    · exact (List.mem_filter.mp h).1
  obtain ⟨c0, hc0⟩ := getFile_isSome_of_mem _ f hmemfs
  have hc1 : getFile (putFile fs j.jobFilepath doc) f = some c0 := by
    rw [getFile_putFile_ne _ _ _ _ hfne, hc0]
  refine ⟨hsorted, c0, putFile ((putFile fs j.jobFilepath doc).filter (fun e => e.1 != f))
      j.jobHeadFilepath c0, hc0, ?_, ?_, ?_, ?_⟩
  · unfold updateState
    simp only [hlist1]
    unfold renameFile
    rw [hc1]
  · exact getFile_putFile_same _ _ _
  · intro hne hmem2
    rw [paths_putFile, paths_filter_keyNe] at hmem2
    rcases List.mem_cons.mp hmem2 with h | h
    · exact hne h
    · have h2 := (List.mem_filter.mp (List.mem_filter.mp h).1).2
      simp at h2
  · intro q c hq hqf hqhf hqjp
    have h1 : (q, c) ∈ putFile fs j.jobFilepath doc := by
      unfold putFile
      exact List.mem_cons_of_mem _ (List.mem_filter.mpr ⟨hq, by simp [hqjp]⟩)
    have h2 : (q, c) ∈ (putFile fs j.jobFilepath doc).filter (fun e => e.1 != f) :=
      List.mem_filter.mpr ⟨h1, by simp [hqf]⟩
    unfold putFile
    exact List.mem_cons_of_mem _ (List.mem_filter.mpr ⟨h2, by simp [hqhf]⟩)

/-- Witness for C5: two entries under the head prefix, given out of order;
the listing sorts them, the first is renamed and the second survives. -/
theorem c5_witness :
    List.Sorted strLe ["jobs/u/r/l;J;a", "jobs/u/r/l;J;b"]
    ∧ ∃ c0 fs2,
      getFile [("jobs/u/r/l;J;b", "B"), ("jobs/u/r/l;J;a", "A")] "jobs/u/r/l;J;a" = some c0
      ∧ updateState [("jobs/u/r/l;J;b", "B"), ("jobs/u/r/l;J;a", "A")] jobRun "doc" = .ok fs2
      ∧ getFile fs2 jobRun.jobHeadFilepath = some c0
      ∧ ("jobs/u/r/l;J;a" ≠ jobRun.jobHeadFilepath → "jobs/u/r/l;J;a" ∉ paths fs2)
      ∧ (∀ q c, (q, c) ∈ [(("jobs/u/r/l;J;b" : String), ("B" : String)), ("jobs/u/r/l;J;a", "A")] →
          q ≠ "jobs/u/r/l;J;a" → q ≠ jobRun.jobHeadFilepath → q ≠ jobRun.jobFilepath →
          (q, c) ∈ fs2) :=
  c5_first_entry_renamed [("jobs/u/r/l;J;b", "B"), ("jobs/u/r/l;J;a", "A")] jobRun "doc"
    "jobs/u/r/l;J;a" ["jobs/u/r/l;J;b"] (by decide) (by decide)

/-- Claim C9: the registered local constructor ignores the parsed config
contents: for any two config files that both read and parse, the
constructed backends are identical, with working root, storage root and
secret-store root all fixed at (home)/.dstack. -/
theorem c9_constructor_ignores_config (homeDir : String)
    (readF : String → StorageRes String) (parseCfg : String → Option ConfigFile)
    (p1 p2 c1 c2 : String) (f1 f2 : ConfigFile)
    (h1 : readF p1 = .ok c1) (h2 : parseCfg c1 = some f1)
    (h3 : readF p2 = .ok c2) (h4 : parseCfg c2 = some f2) :
    localConstructor homeDir readF parseCfg p1 = localConstructor homeDir readF parseCfg p2
    ∧ localConstructor homeDir readF parseCfg p1 = some (newLocal homeDir)
    ∧ (newLocal homeDir).path = homeDir ++ "/.dstack"
    ∧ (newLocal homeDir).storageRoot = homeDir ++ "/.dstack"
    ∧ (newLocal homeDir).secretRoot = homeDir ++ "/.dstack" := by
  have e1 : localConstructor homeDir readF parseCfg p1 = some (newLocal homeDir) := by
    unfold localConstructor
    simp only [h1, h2]
  have e2 : localConstructor homeDir readF parseCfg p2 = some (newLocal homeDir) := by
    unfold localConstructor
    simp only [h3, h4]
  exact ⟨e1.trans e2.symm, e1, rfl, rfl, rfl⟩

/-- Witness for C9: two distinct config files with different path options
yield the same backend. -/
theorem c9_witness :
    localConstructor "home" (fun p => .ok p) (fun c => some ⟨c⟩) "cfg1"
      = localConstructor "home" (fun p => .ok p) (fun c => some ⟨c⟩) "cfg2"
    ∧ localConstructor "home" (fun p => .ok p) (fun c => some ⟨c⟩) "cfg1"
      = some (newLocal "home")
    ∧ (newLocal "home").path = "home" ++ "/.dstack"
    ∧ (newLocal "home").storageRoot = "home" ++ "/.dstack"
    ∧ (newLocal "home").secretRoot = "home" ++ "/.dstack" :=
  c9_constructor_ignores_config "home" (fun p => .ok p) (fun c => some ⟨c⟩)
    "cfg1" "cfg2" "cfg1" "cfg2" ⟨"cfg1"⟩ ⟨"cfg2"⟩ rfl rfl rfl rfl

/-- Claim C10: Init records the runner id on the facade before reading the
state file, so the id is recorded even when Init fails and a later
CheckStop consults runners/m;(id);status for that id; and Init is not
atomic on error — there is a run where Init fails yet the facade changed. -/
theorem c10_init_records_id_first :
    (∀ (l : Local) (id : String) (getF : String → StorageRes String)
        (ps : String → Option State),
      ((initBackend l id getF ps).1).runnerID = id
        ∧ stopFilePath (initBackend l id getF ps).1 = "runners/m;" ++ id ++ ";status")
    ∧ (∃ (l : Local) (id : String) (getF : String → StorageRes String)
        (ps : String → Option State),
      (initBackend l id getF ps).2 = false ∧ (initBackend l id getF ps).1 ≠ l) := by
  constructor
  · intro l id getF ps
    have hid : ((initBackend l id getF ps).1).runnerID = id := by
      unfold initBackend
      cases hg : getF ("runners/" ++ id ++ ".yaml") with
      | ok contents =>
        cases hp : ps contents <;> simp [hp]
      | notFound => simp
      | ioError => simp
    exact ⟨hid, by rw [stopFilePath, hid]⟩
  · refine ⟨newLocal "home", "R1", fun _ => .notFound, fun _ => none, rfl, ?_⟩
    intro h
    have : ((initBackend (newLocal "home") "R1" (fun _ => .notFound) (fun _ => none)).1).runnerID
        = (newLocal "home").runnerID := by rw [h]
    simp [initBackend, newLocal] at this

/-! ### Keys of the secret enumeration -/

theorem mem_mapKeys_mapInsert (m : SecretMap) (k v x : String) :
    x ∈ mapKeys (mapInsert m k v) ↔ x = k ∨ x ∈ mapKeys m := by
  unfold mapKeys mapInsert
  rw [List.map_append]
  simp only [List.mem_append, List.mem_map, List.mem_filter, List.map_cons, List.map_nil,
    List.mem_singleton]
  constructor
  · rintro (⟨e, ⟨he, _⟩, rfl⟩ | hx)
    · exact Or.inr ⟨e, he, rfl⟩
    · exact Or.inl hx
  · rintro (rfl | ⟨e, he, rfl⟩)
    · exact Or.inr rfl
    · by_cases hek : e.1 = k
      · exact Or.inr hek
      · exact Or.inl ⟨e, ⟨he, by simp [hek]⟩, rfl⟩

theorem mem_keys_secretsFold (j : Job) (entries : List DirEntry) (init : SecretMap)
    (k : String) :
    (k ∈ mapKeys (entries.foldl (secretsStep j) init)
      ↔ k ∈ mapKeys init ∨ ∃ e, e ∈ entries ∧ e.isDir = false
          ∧ strHasPrefix "l;" e.name = true ∧ goReplaceAllLSemi e.name = k) := by
  induction entries generalizing init with
  | nil => simp
  | cons e es ih =>
    rw [List.foldl_cons, ih]
    have hstep : k ∈ mapKeys (secretsStep j init e)
        ↔ (e.isDir = false ∧ strHasPrefix "l;" e.name = true ∧ goReplaceAllLSemi e.name = k)
          ∨ k ∈ mapKeys init := by
      unfold secretsStep
      cases hd : e.isDir
      · cases hpfx : strHasPrefix "l;" e.name
        · simp [hd, hpfx]
        · simp [hd, hpfx, mem_mapKeys_mapInsert, eq_comm]
      · simp [hd]
    rw [hstep]
    simp only [List.mem_cons]
    constructor
    · rintro ((hA | hB) | ⟨e2, he2, hq⟩)
      · exact Or.inr ⟨e, Or.inl rfl, hA⟩
      · exact Or.inl hB
      · exact Or.inr ⟨e2, Or.inr he2, hq⟩
    · rintro (hB | ⟨e2, he2 | he2, hq⟩)
      · exact Or.inl (Or.inr hB)
      · exact Or.inl (Or.inl (he2 ▸ hq))
      · exact Or.inr ⟨e2, he2, hq⟩

/-- Claim C2, counterexample: the secret directory holds the single regular
file l;al;b.  With the leading prefix stripped and nothing else removed the
public name would be al;b, but the ReplaceAll of the code also removes the
inner l; and keys the mapping by ab: the claim as stated is false. -/
theorem c2_counterexample :
    secrets jobRun (.present [⟨"l;al;b", false⟩]) (fun _ m => .ok m)
      = .ok [("ab", "h/u/r/ab")]
    ∧ "ab" ≠ "al;b" := by
  constructor
  · rfl
  · decide

/-- Claim C2 as amended: for a present secret directory, and a credential
store resolving every listed name (each enumerated entry exists in the
directory, per the spec of fetchSecret), the keys of the returned mapping
are exactly the names of the regular-file entries starting with l; with
every occurrence of the substring l; removed (Go strings.ReplaceAll), not
only the leading two characters; entries not starting with l; and
subdirectories contribute no key. -/
theorem c2_secrets_keys (j : Job) (entries : List DirEntry)
    (fetchSec : String → SecretMap → SecretsResult)
    (hfetch : ∀ tp m, ∃ m2, fetchSec tp m = .ok m2 ∧ mapKeys m2 = mapKeys m) :
    ∃ m2, secrets j (.present entries) fetchSec = .ok m2
      ∧ ∀ k, k ∈ mapKeys m2 ↔ ∃ e, e ∈ entries ∧ e.isDir = false
          ∧ strHasPrefix "l;" e.name = true ∧ goReplaceAllLSemi e.name = k := by
  obtain ⟨m2, hm2, hkeys⟩ := hfetch (secretsTemplatePath j) (secretsEnum j entries)
  refine ⟨m2, hm2, fun k => ?_⟩
  rw [hkeys]
  have h := mem_keys_secretsFold j entries [] k
  unfold secretsEnum
  rw [h]
  simp [mapKeys]

/-- Witness for C2: entries l;TOKEN, other and a subdirectory skip; TOKEN is
the only key. -/
theorem c2_witness :
    ∃ m2, secrets jobRun
        (.present [⟨"l;TOKEN", false⟩, ⟨"other", false⟩, ⟨"skip", true⟩])
        (fun _ m => .ok m) = .ok m2
      ∧ ∀ k, k ∈ mapKeys m2 ↔ ∃ e,
          e ∈ [(⟨"l;TOKEN", false⟩ : DirEntry), ⟨"other", false⟩, ⟨"skip", true⟩]
          ∧ e.isDir = false ∧ strHasPrefix "l;" e.name = true
          ∧ goReplaceAllLSemi e.name = k :=
  c2_secrets_keys jobRun [⟨"l;TOKEN", false⟩, ⟨"other", false⟩, ⟨"skip", true⟩]
    (fun _ m => .ok m) (fun _ m => ⟨m, rfl, rfl⟩)

end DstackLocal
